import Mathlib

/-!
Verification development for the incremental parser core of the tool/grammar
module (`kalosm-language/src/tool/mod.rs`): the `IndexParser` multi-branch
selection parser, the `OneLine` line parser, and the `ToolManager` registry
composition (`prompt`, `tool_choices`).

Bytes are modelled as `Nat`, Rust `&[u8]` / `Vec<u8>` as `List Nat`,
`Cow<'static, str>` as `RCow` (borrowed/owned byte lists), and fallible
parsing (`Result<ParseResult, E>`) as `Except E (ParseResult ..)`.
-/

/-- Model of Rust `Cow<'static, str>` restricted to what the merge code
observes: its byte content together with the borrowed/owned constructor,
which selects the arm taken in the `required_next` merge of
`IndexParser::parse`. -/
inductive RCow where
  | borrowed (bytes : List Nat)
  | owned (bytes : List Nat)
deriving DecidableEq, Repr

/-- Byte content of a `Cow` value (Rust `.bytes()`). -/
def RCow.bytes : RCow → List Nat
  | .borrowed s => s
  | .owned s => s

/-- Model of the `common_bytes` loop in `IndexParser::parse`: length of the
longest common byte prefix of two hints. -/
def commonPrefixLen : List Nat → List Nat → Nat
  | a :: as, b :: bs => if a = b then commonPrefixLen as bs + 1 else 0
  | _, _ => 0

/-- Longest common byte prefix of two byte strings (the value the spec says
the merged hint must equal). -/
def commonPrefixTake (a b : List Nat) : List Nat :=
  a.take (commonPrefixLen a b)

/-- Model of the `required_next` merge in `IndexParser::parse` (the
`match (r, new_required_next)` expression): the `Cow::Borrowed` arms slice
from `common_bytes` onward (`&s[common_bytes..]`), the `Cow::Owned` arm
truncates to `common_bytes`. -/
def mergeRequiredNext (r nr : RCow) : RCow :=
  let c := commonPrefixLen r.bytes nr.bytes
  match r, nr with
  | .borrowed s, _ => .borrowed (s.drop c)
  | .owned _, .borrowed s => .borrowed (s.drop c)
  | .owned s, .owned _ => .owned (s.take c)

/-- Model of `kalosm_sample::ParseResult<'a, PA, O>`: either finished with an
output and the unconsumed remainder of the current input, or incomplete with
a new state and a required-next hint. -/
inductive ParseResult (PA : Type) (O : Type) where
  | finished (result : O) (remaining : List Nat)
  | incomplete (newState : PA) (requiredNext : RCow)
deriving DecidableEq

instance {E A : Type} [DecidableEq E] [DecidableEq A] : DecidableEq (Except E A) := fun a b =>
  match a, b with
  | .ok x, .ok y => decidable_of_iff (x = y) (by simp)
  | .ok _, .error _ => isFalse (fun h => by cases h)
  | .error _, .ok _ => isFalse (fun h => by cases h)
  | .error x, .error y => decidable_of_iff (x = y) (by simp)

/-- Model of `IndexParserState<PA, E>`: one stored sub-state or stored error
per branch. -/
structure IndexParserState (PA E : Type) where
  states : List (Except E PA)
deriving DecidableEq

/-- One scan step of `IndexParser::parse` for a single branch: a branch whose
stored state is an error (Dead) contributes that stored error; an alive
branch runs its sub-parser on the current input. -/
def branchStep {S PA E : Type} (bp : S → PA → List Nat → Except E (ParseResult PA Unit))
    (input : List Nat) : S × Except E PA → Except E (ParseResult PA Unit)
  | (s, .ok pa) => bp s pa input
  | (_, .error e) => .error e

/-- The stored state a branch holds after a scan step that did not finish:
`Ok` of the new sub-state on Incomplete, the error on rejection, unchanged on
the (unreachable under use) Finished case. -/
def branchNewState {S PA E : Type} (bp : S → PA → List Nat → Except E (ParseResult PA Unit))
    (input : List Nat) (z : S × Except E PA) : Except E PA :=
  match branchStep bp input z with
  | .ok (.incomplete ns _) => .ok ns
  | .error e => .error e
  | .ok (.finished _ _) => z.2

/-- The branch scan loop of `IndexParser::parse`, over the remaining
(parser, stored state) pairs: `i` is the current branch index, `hasInc`
is `has_incomplete_option`, `req` the running merged hint, `acc` the
already-updated states in reverse order. On Finished it returns that branch's
index and remainder immediately; an error (fresh or stored) is returned only
at `lastIndex` when no branch has reported Incomplete this call. -/
def indexLoop {S PA E : Type} (bp : S → PA → List Nat → Except E (ParseResult PA Unit))
    (input : List Nat) (lastIndex : Nat) :
    List (S × Except E PA) → Nat → Bool → Option RCow → List (Except E PA) →
    Except E (ParseResult (IndexParserState PA E) Nat)
  | [], _, _, req, acc => .ok (.incomplete ⟨acc.reverse⟩ (req.getD (.owned [])))
  | (s, est) :: rest, i, hasInc, req, acc =>
    match branchStep bp input (s, est) with
    | .ok (.finished _ r) => .ok (.finished i r)
    | .ok (.incomplete ns nreq) =>
        indexLoop bp input lastIndex rest (i + 1) true
          (some (match req with
                 | some r => mergeRequiredNext r nreq
                 | none => nreq))
          (.ok ns :: acc)
    | .error e =>
        if !hasInc && i == lastIndex then .error e
        else indexLoop bp input lastIndex rest (i + 1) hasInc req (.error e :: acc)

/-- Model of `IndexParser::parse`: clone the stored states, scan all branches
in registration order (`last_index = parsers.len() - 1`), and either finish
with the first finishing branch's index, fail once every branch is dead, or
return Incomplete with the updated states and the folded hint
(`required_next.unwrap_or_default()`). -/
def indexParse {S PA E : Type} (parsers : List S)
    (bp : S → PA → List Nat → Except E (ParseResult PA Unit))
    (state : IndexParserState PA E) (input : List Nat) :
    Except E (ParseResult (IndexParserState PA E) Nat) :=
  indexLoop bp input (parsers.length - 1) (parsers.zip state.states) 0 false none []

/-- Modelled from the spec: the external `kalosm_sample::LiteralParser`
combinator (the primitive literal combinator is out of scope of the source
file and "treated as a pre-existing interface with a documented contract").
State is the byte offset already matched; it finishes when the whole literal
has been matched (remainder = the rest of the current input), rejects on the
first mismatching byte, and on exhausted input returns Incomplete with the
unmatched rest of the literal as an owned required-next hint. -/
def litParse (lit : List Nat) : Nat → List Nat → Except Unit (ParseResult Nat Unit)
  | offset, [] =>
      if lit.length ≤ offset then .ok (.finished () [])
      else .ok (.incomplete offset (.owned (lit.drop offset)))
  | offset, c :: rest =>
      if lit.length ≤ offset then .ok (.finished () (c :: rest))
      else if lit.getD offset 0 = c then litParse lit (offset + 1) rest
      else .error ()

/-- The stored state of a literal branch with literal `L` after the byte
string `p` has been consumed with no finish: alive at offset `p.length` if
`p` is a prefix of `L`, dead otherwise. -/
def litStateEntry (p L : List Nat) : Except Unit Nat :=
  if p <+: L then .ok p.length else .error ()

/-- Stored branch states of an `IndexParser` over literal branches after
consuming `p`. -/
def litStates (ls : List (List Nat)) (p : List Nat) : List (Except Unit Nat) :=
  ls.map (litStateEntry p)

/-- Model of `IndexParser::create_parser_state` for literal branches: every
branch starts alive at offset 0. -/
def initIndexState (ls : List (List Nat)) : IndexParserState Nat Unit :=
  ⟨ls.map (fun _ => .ok 0)⟩

/-- Unicode White_Space test for a single byte interpreted as a `char`
(Rust `char::try_from(c: u8)` always succeeds and yields the Latin-1 code
point, and `char::is_whitespace` checks the White_Space property, which in
Latin-1 holds exactly for 0x09..0x0D, 0x20, 0x85 and 0xA0). -/
def byteIsWhitespace (c : Nat) : Bool :=
  (0x09 ≤ c && c ≤ 0x0D) || c == 0x20 || c == 0x85 || c == 0xA0

/-- Line terminator test from `OneLine::parse` (`c == b'\n' || c == b'\r'`). -/
def isTermByte (c : Nat) : Bool :=
  c == 10 || c == 13

/-- The U+FFFD replacement character. -/
def utf8Repl : Char := Char.ofNat 0xFFFD

/-- UTF-8 continuation byte test. -/
def contByte (b : Nat) : Bool := 0x80 ≤ b && b ≤ 0xBF

/-- Handling of a byte in starter position during UTF-8 decoding: the
characters emitted immediately (an ASCII character, a replacement for an
invalid lead byte, or nothing when a multi-byte sequence begins) together
with the decoder state `(needed continuations, accumulator, low, high)` where
`[low, high]` is the admissible range of the next byte. -/
def utf8StarterStep (b : Nat) : List Char × (Nat × Nat × Nat × Nat) :=
  if b < 0x80 then ([Char.ofNat b], (0, 0, 0, 0))
  else if b < 0xC2 then ([utf8Repl], (0, 0, 0, 0))
  else if b ≤ 0xDF then ([], (1, b - 0xC0, 0x80, 0xBF))
  else if b ≤ 0xEF then
    ([], (2, b - 0xE0, if b = 0xE0 then 0xA0 else 0x80, if b = 0xED then 0x9F else 0xBF))
  else if b ≤ 0xF4 then
    ([], (3, b - 0xF0, if b = 0xF0 then 0x90 else 0x80, if b = 0xF4 then 0x8F else 0xBF))
  else ([utf8Repl], (0, 0, 0, 0))

/-- Byte-at-a-time UTF-8 decoding loop with U+FFFD substitution of maximal
invalid subparts: a sequence cut off by the end of input or by an invalid
continuation byte is replaced by one replacement character, and an invalid
continuation byte is then reinterpreted as a starter. -/
def utf8Run : Nat × Nat × Nat × Nat → List Nat → List Char
  | (0, _, _, _), [] => []
  | (_ + 1, _, _, _), [] => [utf8Repl]
  | (0, _, _, _), b :: rest =>
      let s := utf8StarterStep b
      s.1 ++ utf8Run s.2 rest
  | (need + 1, acc, lo, hi), b :: rest =>
      if lo ≤ b ∧ b ≤ hi then
        if need = 0 then Char.ofNat (acc * 0x40 + (b - 0x80)) :: utf8Run (0, 0, 0, 0) rest
        else utf8Run (need, acc * 0x40 + (b - 0x80), 0x80, 0xBF) rest
      else
        let s := utf8StarterStep b
        utf8Repl :: (s.1 ++ utf8Run s.2 rest)

/-- Model of Rust `String::from_utf8_lossy`: standard UTF-8 decoding where
every maximal invalid subpart is replaced by U+FFFD instead of failing. -/
def utf8LossyDecode (l : List Nat) : List Char :=
  utf8Run (0, 0, 0, 0) l

/-- Model of `OneLineState`: the sticky all-whitespace flag and the bytes
accumulated so far. -/
structure OneLineState where
  all_whitespace : Bool
  bytes : List Nat
deriving DecidableEq

/-- Model of `OneLine::create_parser_state`. -/
def oneLineInit : OneLineState := ⟨true, []⟩

/-- The byte scan loop of `OneLine::parse`: update the sticky flag on a
non-whitespace byte, stop at the first `\n`/`\r` (reject if still
all-whitespace, otherwise finish with the lossily decoded accumulated bytes
and the input after the terminator), append other bytes and continue; an
exhausted chunk yields Incomplete with no hint. -/
def oneLineLoop : OneLineState → List Nat → Except Unit (ParseResult OneLineState String)
  | st, [] => .ok (.incomplete st (.owned []))
  | st, c :: rest =>
    let st1 : OneLineState :=
      if st.all_whitespace && !byteIsWhitespace c then ⟨false, st.bytes⟩ else st
    if isTermByte c then
      if st1.all_whitespace then .error ()
      else .ok (.finished (String.mk (utf8LossyDecode st1.bytes)) rest)
    else oneLineLoop ⟨st1.all_whitespace, st1.bytes ++ [c]⟩ rest

/-- Model of `OneLine::parse`: an empty chunk is rejected while the state is
still all-whitespace and otherwise left Incomplete unchanged; a non-empty
chunk is scanned byte by byte. -/
def oneLineParse (st : OneLineState) (input : List Nat) :
    Except Unit (ParseResult OneLineState String) :=
  if input = [] then
    if st.all_whitespace then .error ()
    else .ok (.incomplete st (.owned []))
  else oneLineLoop st input

/-- Model of the `Tool` trait data consumed by `ToolManager`: name, input
prompt and description, all as byte strings. -/
structure Tool where
  name : List Nat
  inputPrompt : List Nat
  description : List Nat
deriving DecidableEq

/-- UTF-8 encoding of a single character. -/
def charUtf8 (c : Char) : List Nat :=
  let n := c.toNat
  if n < 0x80 then [n]
  else if n < 0x800 then [0xC0 + n / 0x40, 0x80 + n % 0x40]
  else if n < 0x10000 then [0xE0 + n / 0x1000, 0x80 + n / 0x40 % 0x40, 0x80 + n % 0x40]
  else [0xF0 + n / 0x40000, 0x80 + n / 0x1000 % 0x40, 0x80 + n / 0x40 % 0x40, 0x80 + n % 0x40]

/-- Bytes of a string literal (used for the fixed prompt template text). -/
def strBytes (s : String) : List Nat :=
  (s.data.map charUtf8).flatten

/-- Model of `ToolManager::tool_choices`: one literal branch marker
`"{name}\n{prompt}"` per tool in registration order, `None` when the registry
is empty. -/
def toolChoices (tools : List Tool) : Option (List (List Nat)) :=
  let choices := tools.map (fun t => t.name ++ [10] ++ t.inputPrompt)
  if choices.isEmpty then none else some choices

/-- The accumulator loop of `ToolManager::prompt`: one pass over the tools,
pushing `"# {name}\n{description}"` onto the tools text and `"'{name}'"`
onto the names text. -/
def promptLoop : List Tool → List Nat × List Nat → List Nat × List Nat
  | [], acc => acc
  | t :: rest, (ts, tn) =>
      promptLoop rest
        (ts ++ strBytes "# " ++ t.name ++ strBytes "\n" ++ t.description,
         tn ++ strBytes "'" ++ t.name ++ strBytes "'")

/-- Fixed template text of `ToolManager::prompt` before `{tool_names}`. -/
def promptPartA : List Nat :=
  strBytes "Use the following format:\n\nQuestion: the input question you must answer\nThought: you should always think about what to do\nAction: the action to take, should be one of ["

/-- Fixed template text of `ToolManager::prompt` between `{tool_names}` and
`{tools}`. -/
def promptPartB : List Nat :=
  strBytes "]\nInput: the input to the action\nObservation: the result of the action\n... (this Thought/Action/Input/Observation can repeat N times)\nThought: I now know the final answer\nFinal Answer: the final answer to the original input question\n\nYou have access to the following tools:\n\n"

/-- Fixed template text of `ToolManager::prompt` between `{tools}` and
`{question}`. -/
def promptPartC : List Nat :=
  strBytes "\n\nBegin!\n\nQuestion: "

/-- Fixed template text of `ToolManager::prompt` after `{question}`. -/
def promptPartD : List Nat :=
  strBytes "\n"

/-- Model of `ToolManager::prompt`: run the accumulator loop and splice the
two accumulated texts and the question into the fixed template. -/
def prompt (tools : List Tool) (question : List Nat) : List Nat :=
  let acc := promptLoop tools ([], [])
  promptPartA ++ acc.2 ++ promptPartB ++ acc.1 ++ promptPartC ++ question ++ promptPartD

/-- Number of occurrences of `pat` as a contiguous substring of `l` (counting
one per start position). -/
def countOcc (pat : List Nat) : List Nat → Nat
  | [] => if pat = [] then 1 else 0
  | c :: rest => (if pat.isPrefixOf (c :: rest) then 1 else 0) + countOcc pat rest

/-- Index of the first element satisfying `p`, if any. -/
def firstMatchIdx {α : Type} (p : α → Bool) : List α → Option Nat
  | [] => none
  | a :: as => if p a then some 0 else (firstMatchIdx p as).map (· + 1)

/-- Projection of a parse run to what the chunk-independence property
compares: a finished output with its total unconsumed remainder, a still
pending parse, or a failed parse. -/
inductive StreamOutcome (O : Type) where
  | finished (out : O) (remainder : List Nat)
  | pending
  | failed
deriving DecidableEq

/-- Thread `IndexParser::parse` over literal branches through a list of input
chunks; a finished result's remainder is extended by the chunks never fed. -/
def runIndexChunks (ls : List (List Nat)) :
    IndexParserState Nat Unit → List (List Nat) → StreamOutcome Nat
  | _, [] => .pending
  | st, c :: cs =>
    match indexParse ls litParse st c with
    | .error _ => .failed
    | .ok (.finished i r) => .finished i (r ++ cs.flatten)
    | .ok (.incomplete st2 _) => runIndexChunks ls st2 cs

/-- Thread `OneLine::parse` through a list of input chunks; a finished
result's remainder is extended by the chunks never fed. -/
def runOneLineChunks : OneLineState → List (List Nat) → StreamOutcome String
  | _, [] => .pending
  | st, c :: cs =>
    match oneLineParse st c with
    | .error _ => .failed
    | .ok (.finished o r) => .finished o (r ++ cs.flatten)
    | .ok (.incomplete st2 _) => runOneLineChunks st2 cs

/-- Branch classification used to state scan results: branch `L` finishes on
this call iff it is alive (`p <+: L`) and completes within the new input. -/
def finPred (p c : List Nat) (L : List Nat) : Bool :=
  p.isPrefixOf L && L.isPrefixOf (p ++ c)

/-- Branch classification: branch `L` is strictly alive after `q` has been
consumed. -/
def alivePred (q : List Nat) (L : List Nat) : Bool :=
  q.isPrefixOf L && !(L == q)

/-- The outcome a single `IndexParser::parse` call over literal branches
`ls`, already holding consumed bytes `p`, produces on further input `c`:
the earliest branch completing inside `p ++ c` wins; otherwise the parse is
pending exactly when some branch strictly extends `p ++ c`. -/
def singleOutcome (ls : List (List Nat)) (p c : List Nat) : StreamOutcome Nat :=
  match firstMatchIdx (finPred p c) ls with
  | some k => .finished k (c.drop ((ls.getD k []).length - p.length))
  | none => if ls.any (alivePred (p ++ c)) then .pending else .failed

/-- Example registry entry used in concrete evaluations: a tool named
"search" with input prompt "query:" and description "zzz9". -/
def searchTool : Tool :=
  ⟨strBytes "search", strBytes "query:", strBytes "zzz9"⟩

/-! ### Characterization of the literal branch parser -/

theorem litParse_eq (L : List Nat) (c : List Nat) (o : Nat) :
    litParse L o c =
      if L.drop o <+: c then .ok (.finished () (c.drop (L.length - o)))
      else if c <+: L.drop o then
        .ok (.incomplete (o + c.length) (.owned (L.drop (o + c.length))))
      else .error () := by
  induction c generalizing o with
  | nil =>
    simp only [litParse]
    by_cases h : L.length ≤ o
    · rw [if_pos h, List.drop_eq_nil_of_le h]
      simp
    · rw [if_neg h]
      have hd : L.drop o ≠ [] := by
        intro hnil
        have := List.length_drop o L
        rw [hnil] at this
        simp at this
        omega
      rw [if_neg (by simpa [List.prefix_nil] using hd), if_pos List.nil_prefix]
      simp
  | cons b cr ih =>
    simp only [litParse]
    by_cases h : L.length ≤ o
    · rw [if_pos h, List.drop_eq_nil_of_le h, if_pos List.nil_prefix]
      have : L.length - o = 0 := by omega
      rw [this]
      simp
    · rw [if_neg h]
      have ho : o < L.length := by omega
      have hdrop : L.drop o = L[o] :: L.drop (o + 1) := List.drop_eq_getElem_cons ho
      rw [List.getD_eq_getElem L 0 ho, hdrop]
      by_cases heq : L[o] = b
      · rw [if_pos heq, ih (o + 1)]
        have h1 : (L[o] :: L.drop (o + 1) <+: b :: cr) ↔ L.drop (o + 1) <+: cr := by
          rw [List.cons_prefix_cons]
          simp [heq]
        have h2 : (b :: cr <+: L[o] :: L.drop (o + 1)) ↔ cr <+: L.drop (o + 1) := by
          rw [List.cons_prefix_cons]
          simp [heq]
        by_cases hfin : L.drop (o + 1) <+: cr
        · rw [if_pos hfin, if_pos (h1.mpr hfin)]
          have : L.length - o = (L.length - (o + 1)) + 1 := by omega
          rw [this]
          simp
        · rw [if_neg hfin, if_neg (fun hc => hfin (h1.mp hc))]
          by_cases hinc : cr <+: L.drop (o + 1)
          · rw [if_pos hinc, if_pos (h2.mpr hinc)]
            have : o + 1 + cr.length = o + (cr.length + 1) := by omega
            rw [this]
            simp
          · rw [if_neg hinc, if_neg (fun hc => hinc (h2.mp hc))]
      · rw [if_neg heq]
        have h1 : ¬(L[o] :: L.drop (o + 1) <+: b :: cr) := by
          rw [List.cons_prefix_cons]
          exact fun hc => heq hc.1
        have h2 : ¬(b :: cr <+: L[o] :: L.drop (o + 1)) := by
          rw [List.cons_prefix_cons]
          exact fun hc => heq hc.1.symm
        rw [if_neg h1, if_neg h2]

theorem litBranchStep_eq (p c L : List Nat) :
    branchStep litParse c (L, litStateEntry p L) =
      if p <+: L ∧ L <+: p ++ c then .ok (.finished () (c.drop (L.length - p.length)))
      else if p ++ c <+: L ∧ p ++ c ≠ L then
        .ok (.incomplete (p.length + c.length) (.owned (L.drop (p.length + c.length))))
      else .error () := by
  unfold litStateEntry
  by_cases hp : p <+: L
  · rw [if_pos hp]
    show litParse L p.length c = _
    obtain ⟨t, rfl⟩ := hp
    have hdrop : (p ++ t).drop p.length = t := List.drop_left p t
    have hfin : (p ++ t <+: p ++ c) ↔ t <+: c := List.prefix_append_right_inj p
    have hinc : (p ++ c <+: p ++ t) ↔ c <+: t := List.prefix_append_right_inj p
    rw [litParse_eq, hdrop]
    by_cases h1 : t <+: c
    · rw [if_pos h1, if_pos ⟨List.prefix_append p t, hfin.mpr h1⟩]
    · rw [if_neg h1]
      by_cases h2 : c <+: t
      · have hne : p ++ c ≠ p ++ t := by
          intro hc
          have hct : c = t := List.append_cancel_left hc
          exact h1 (by rw [← hct])
        rw [if_pos h2,
          if_neg (fun hc : p <+: p ++ t ∧ p ++ t <+: p ++ c => h1 (hfin.mp hc.2)),
          if_pos ⟨hinc.mpr h2, hne⟩]
      · rw [if_neg h2,
          if_neg (fun hc : p <+: p ++ t ∧ p ++ t <+: p ++ c => h1 (hfin.mp hc.2)),
          if_neg (fun hc : p ++ c <+: p ++ t ∧ p ++ c ≠ p ++ t => h2 (hinc.mp hc.1))]
  · rw [if_neg hp]
    show Except.error () = _
    rw [if_neg (fun hc => hp hc.1), if_neg]
    rintro ⟨hc, -⟩
    exact hp ((List.prefix_append p c).trans hc)

/-! ### Step equations and scan lemmas for the IndexParser loop -/

theorem indexLoop_cons_fin {S PA E : Type}
    (bp : S → PA → List Nat → Except E (ParseResult PA Unit)) (input : List Nat)
    (lastIndex : Nat) (z : S × Except E PA) (rest : List (S × Except E PA)) (i : Nat)
    (hasInc : Bool) (req : Option RCow) (acc : List (Except E PA)) (o : Unit) (r : List Nat)
    (h : branchStep bp input z = .ok (.finished o r)) :
    indexLoop bp input lastIndex (z :: rest) i hasInc req acc = .ok (.finished i r) := by
  obtain ⟨s, est⟩ := z
  simp only [indexLoop, h]

theorem indexLoop_cons_inc {S PA E : Type}
    (bp : S → PA → List Nat → Except E (ParseResult PA Unit)) (input : List Nat)
    (lastIndex : Nat) (z : S × Except E PA) (rest : List (S × Except E PA)) (i : Nat)
    (hasInc : Bool) (req : Option RCow) (acc : List (Except E PA)) (ns : PA) (nreq : RCow)
    (h : branchStep bp input z = .ok (.incomplete ns nreq)) :
    indexLoop bp input lastIndex (z :: rest) i hasInc req acc =
      indexLoop bp input lastIndex rest (i + 1) true
        (some (match req with
               | some r0 => mergeRequiredNext r0 nreq
               | none => nreq))
        (.ok ns :: acc) := by
  obtain ⟨s, est⟩ := z
  simp only [indexLoop, h]

theorem indexLoop_cons_err {S PA E : Type}
    (bp : S → PA → List Nat → Except E (ParseResult PA Unit)) (input : List Nat)
    (lastIndex : Nat) (z : S × Except E PA) (rest : List (S × Except E PA)) (i : Nat)
    (hasInc : Bool) (req : Option RCow) (acc : List (Except E PA)) (e : E)
    (h : branchStep bp input z = .error e) :
    indexLoop bp input lastIndex (z :: rest) i hasInc req acc =
      if !hasInc && i == lastIndex then .error e
      else indexLoop bp input lastIndex rest (i + 1) hasInc req (.error e :: acc) := by
  obtain ⟨s, est⟩ := z
  simp only [indexLoop, h]

theorem indexLoop_ok_of_inc {S PA E : Type}
    (bp : S → PA → List Nat → Except E (ParseResult PA Unit)) (input : List Nat)
    (lastIndex : Nat) :
    ∀ (zs : List (S × Except E PA)) (i : Nat) (req : Option RCow) (acc : List (Except E PA)),
      ∃ v, indexLoop bp input lastIndex zs i true req acc = .ok v := by
  intro zs
  induction zs with
  | nil => exact fun i req acc => ⟨_, rfl⟩
  | cons z rest ih =>
    intro i req acc
    cases hz : branchStep bp input z with
    | ok pr =>
      cases pr with
      | finished o r => exact ⟨_, indexLoop_cons_fin bp input lastIndex z rest i true req acc o r hz⟩
      | incomplete ns nreq =>
        rw [indexLoop_cons_inc bp input lastIndex z rest i true req acc ns nreq hz]
        exact ih _ _ _
    | error e =>
      rw [indexLoop_cons_err bp input lastIndex z rest i true req acc e hz]
      simp only [Bool.not_true, Bool.false_and, Bool.false_eq_true, if_false]
      exact ih _ _ _

theorem indexLoop_finished {S PA E : Type}
    (bp : S → PA → List Nat → Except E (ParseResult PA Unit)) (input : List Nat)
    (lastIndex : Nat) :
    ∀ (pre : List (S × Except E PA)) (z : S × Except E PA) (bs : List (S × Except E PA))
      (i : Nat) (hasInc : Bool) (req : Option RCow) (acc : List (Except E PA))
      (o : Unit) (r : List Nat),
      (∀ y ∈ pre, ∀ o2 r2, branchStep bp input y ≠ .ok (.finished o2 r2)) →
      branchStep bp input z = .ok (.finished o r) →
      i + pre.length ≤ lastIndex →
      indexLoop bp input lastIndex (pre ++ z :: bs) i hasInc req acc =
        .ok (.finished (i + pre.length) r) := by
  intro pre
  induction pre with
  | nil =>
    intro z bs i hasInc req acc o r _ hz _
    simpa using indexLoop_cons_fin bp input lastIndex z bs i hasInc req acc o r hz
  | cons y pre ih =>
    intro z bs i hasInc req acc o r hpre hz hle
    rw [List.length_cons] at hle ⊢
    have hidx : i + (pre.length + 1) = (i + 1) + pre.length := by omega
    rw [List.cons_append, hidx]
    cases hy : branchStep bp input y with
    | ok pr =>
      cases pr with
      | finished o2 r2 => exact absurd hy (hpre y (List.mem_cons_self y pre) o2 r2)
      | incomplete ns nreq =>
        rw [indexLoop_cons_inc bp input lastIndex y _ i hasInc req acc ns nreq hy]
        exact ih z bs (i + 1) true _ _ o r
          (fun w hw => hpre w (List.mem_cons_of_mem y hw)) hz (by omega)
    | error e =>
      rw [indexLoop_cons_err bp input lastIndex y _ i hasInc req acc e hy]
      have hne : (i == lastIndex) = false := by
        have : i ≠ lastIndex := by omega
        exact beq_eq_false_iff_ne.mpr this
      rw [hne, Bool.and_false, if_neg (by simp)]
      exact ih z bs (i + 1) hasInc req _ o r
        (fun w hw => hpre w (List.mem_cons_of_mem y hw)) hz (by omega)

theorem indexLoop_incomplete {S PA E : Type}
    (bp : S → PA → List Nat → Except E (ParseResult PA Unit)) (input : List Nat)
    (lastIndex : Nat) :
    ∀ (zs : List (S × Except E PA)) (i : Nat) (hasInc : Bool) (req : Option RCow)
      (acc : List (Except E PA)),
      i + zs.length = lastIndex + 1 →
      (∀ z ∈ zs, ∀ o r, branchStep bp input z ≠ .ok (.finished o r)) →
      (hasInc = true ∨ ∃ z ∈ zs, ∃ ns nr, branchStep bp input z = .ok (.incomplete ns nr)) →
      ∃ hint, indexLoop bp input lastIndex zs i hasInc req acc =
        .ok (.incomplete ⟨acc.reverse ++ zs.map (branchNewState bp input)⟩ hint) := by
  intro zs
  induction zs with
  | nil =>
    intro i hasInc req acc _ _ _
    exact ⟨req.getD (.owned []), by simp [indexLoop]⟩
  | cons z rest ih =>
    intro i hasInc req acc hlen hnof hsome
    rw [List.length_cons] at hlen
    cases hz : branchStep bp input z with
    | ok pr =>
      cases pr with
      | finished o r => exact absurd hz (hnof z (List.mem_cons_self z rest) o r)
      | incomplete ns nreq =>
        obtain ⟨hint, hh⟩ := ih (i + 1) true
          (some (match req with
                 | some r0 => mergeRequiredNext r0 nreq
                 | none => nreq))
          (.ok ns :: acc) (by omega)
          (fun w hw => hnof w (List.mem_cons_of_mem z hw)) (Or.inl rfl)
        refine ⟨hint, ?_⟩
        rw [indexLoop_cons_inc bp input lastIndex z rest i hasInc req acc ns nreq hz, hh]
        have hmap : branchNewState bp input z = .ok ns := by
          simp [branchNewState, hz]
        simp [hmap, List.reverse_cons, List.append_assoc]
    | error e =>
      have hmap : branchNewState bp input z = .error e := by
        simp [branchNewState, hz]
      rw [indexLoop_cons_err bp input lastIndex z rest i hasInc req acc e hz]
      cases hasInc with
      | true =>
        simp only [Bool.not_true, Bool.false_and, Bool.false_eq_true, if_false]
        obtain ⟨hint, hh⟩ := ih (i + 1) true req (.error e :: acc) (by omega)
          (fun w hw => hnof w (List.mem_cons_of_mem z hw)) (Or.inl rfl)
        refine ⟨hint, ?_⟩
        rw [hh]
        simp [hmap, List.reverse_cons, List.append_assoc]
      | false =>
        have hrest : ∃ w ∈ rest, ∃ ns nr, branchStep bp input w = .ok (.incomplete ns nr) := by
          rcases hsome with h | ⟨w, hw, hex⟩
          · exact absurd h (by simp)
          · rcases List.mem_cons.mp hw with rfl | hw2
            · obtain ⟨ns, nr, hwe⟩ := hex
              rw [hz] at hwe
              exact absurd hwe (by simp)
            · exact ⟨w, hw2, hex⟩
        have hi : i ≠ lastIndex := by
          intro hieq
          have : rest.length = 0 := by omega
          rw [List.length_eq_zero] at this
          obtain ⟨w, hw, -⟩ := hrest
          rw [this] at hw
          exact absurd hw (List.not_mem_nil w)
        rw [beq_eq_false_iff_ne.mpr hi, Bool.and_false, if_neg (by simp)]
        obtain ⟨hint, hh⟩ := ih (i + 1) false req (.error e :: acc) (by omega)
          (fun w hw => hnof w (List.mem_cons_of_mem z hw)) (Or.inr hrest)
        refine ⟨hint, ?_⟩
        rw [hh]
        simp [hmap, List.reverse_cons, List.append_assoc]

theorem indexLoop_error {S PA E : Type}
    (bp : S → PA → List Nat → Except E (ParseResult PA Unit)) (input : List Nat)
    (lastIndex : Nat) :
    ∀ (zs : List (S × Except E PA)) (i : Nat) (req : Option RCow) (acc : List (Except E PA))
      (e : E),
      i + zs.length = lastIndex + 1 →
      (∀ z ∈ zs, ∃ e2, branchStep bp input z = .error e2) →
      ∀ (hne : zs ≠ []), branchStep bp input (zs.getLast hne) = .error e →
      indexLoop bp input lastIndex zs i false req acc = .error e := by
  intro zs
  induction zs with
  | nil => exact fun i req acc e _ _ hne _ => absurd rfl hne
  | cons z rest ih =>
    intro i req acc e hlen hall hne hlast
    cases rest with
    | nil =>
      have hz : branchStep bp input z = .error e := by
        simpa [List.getLast] using hlast
      rw [indexLoop_cons_err bp input lastIndex z [] i false req acc e hz]
      have : (i == lastIndex) = true := by
        rw [List.length_cons] at hlen
        simp only [List.length_nil] at hlen
        exact beq_iff_eq.mpr (by omega)
      rw [this]
      simp
    | cons z2 rest2 =>
      obtain ⟨e2, hz⟩ := hall z (List.mem_cons_self z (z2 :: rest2))
      rw [indexLoop_cons_err bp input lastIndex z (z2 :: rest2) i false req acc e2 hz]
      have hi : i ≠ lastIndex := by
        simp only [List.length_cons] at hlen
        omega
      rw [beq_eq_false_iff_ne.mpr hi, Bool.and_false, if_neg (by simp)]
      refine ih (i + 1) req (.error e2 :: acc) e ?_ ?_ (by simp) ?_
      · simp only [List.length_cons] at hlen ⊢
        omega
      · exact fun w hw => hall w (List.mem_cons_of_mem z hw)
      · rw [List.getLast_cons (by simp : (z2 :: rest2 : List (S × Except E PA)) ≠ [])] at hlast
        exact hlast

theorem indexLoop_error_inv {S PA E : Type}
    (bp : S → PA → List Nat → Except E (ParseResult PA Unit)) (input : List Nat)
    (lastIndex : Nat) :
    ∀ (zs : List (S × Except E PA)) (i : Nat) (hasInc : Bool) (req : Option RCow)
      (acc : List (Except E PA)) (e : E),
      i + zs.length = lastIndex + 1 →
      indexLoop bp input lastIndex zs i hasInc req acc = .error e →
      hasInc = false ∧ (∀ z ∈ zs, ∃ e2, branchStep bp input z = .error e2) ∧
      ∃ hne : zs ≠ [], branchStep bp input (zs.getLast hne) = .error e := by
  intro zs
  induction zs with
  | nil =>
    intro i hasInc req acc e _ h
    exact absurd h (by simp [indexLoop])
  | cons z rest ih =>
    intro i hasInc req acc e hlen h
    rw [List.length_cons] at hlen
    cases hz : branchStep bp input z with
    | ok pr =>
      cases pr with
      | finished o r =>
        rw [indexLoop_cons_fin bp input lastIndex z rest i hasInc req acc o r hz] at h
        exact absurd h (by simp)
      | incomplete ns nreq =>
        rw [indexLoop_cons_inc bp input lastIndex z rest i hasInc req acc ns nreq hz] at h
        obtain ⟨v, hv⟩ := indexLoop_ok_of_inc bp input lastIndex rest (i + 1) _ _
        rw [hv] at h
        exact absurd h (by simp)
    | error e2 =>
      rw [indexLoop_cons_err bp input lastIndex z rest i hasInc req acc e2 hz] at h
      by_cases hcond : (!hasInc && i == lastIndex) = true
      · rw [if_pos hcond] at h
        have he : e2 = e := by
          simpa using h
        have hinc : hasInc = false := by
          rcases Bool.and_eq_true_iff.mp hcond with ⟨h1, -⟩
          simpa using h1
        have hieq : i = lastIndex := by
          rcases Bool.and_eq_true_iff.mp hcond with ⟨-, h2⟩
          exact beq_iff_eq.mp h2
        have hrest : rest = [] := by
          rw [← List.length_eq_zero]
          omega
        subst hrest
        subst he
        refine ⟨hinc, ?_, ⟨by simp, ?_⟩⟩
        · intro w hw
          rcases List.mem_cons.mp hw with rfl | hw2
          · exact ⟨e2, hz⟩
          · exact absurd hw2 (List.not_mem_nil w)
        · simpa [List.getLast] using hz
      · rw [if_neg hcond] at h
        obtain ⟨hinc, hall, hne', hlast⟩ := ih (i + 1) hasInc req (.error e2 :: acc) e
          (by omega) h
        refine ⟨hinc, ?_, ⟨by simp, ?_⟩⟩
        · intro w hw
          rcases List.mem_cons.mp hw with rfl | hw2
          · exact ⟨e2, hz⟩
          · exact hall w hw2
        · rw [List.getLast_cons hne']
          exact hlast

/-! ### Lemmas about firstMatchIdx -/

theorem firstMatchIdx_none_of {α : Type} (p : α → Bool) :
    ∀ (l : List α), (∀ x ∈ l, p x = false) → firstMatchIdx p l = none := by
  intro l
  induction l with
  | nil => intro _; rfl
  | cons a l ih =>
    intro h
    simp only [firstMatchIdx, h a (List.mem_cons_self a l), Bool.false_eq_true, if_false]
    rw [ih (fun x hx => h x (List.mem_cons_of_mem a hx))]
    rfl

theorem firstMatchIdx_none_inv {α : Type} (p : α → Bool) :
    ∀ (l : List α), firstMatchIdx p l = none → ∀ x ∈ l, p x = false := by
  intro l
  induction l with
  | nil => intro _ x hx; exact absurd hx (List.not_mem_nil x)
  | cons a l ih =>
    intro h x hx
    by_cases ha : p a = true
    · rw [firstMatchIdx, if_pos ha] at h
      exact absurd h (by simp)
    · rw [firstMatchIdx, if_neg ha] at h
      rcases List.mem_cons.mp hx with rfl | hx2
      · simpa using ha
      · exact ih (Option.map_eq_none'.mp h) x hx2

theorem firstMatchIdx_some_spec {α : Type} (p : α → Bool) :
    ∀ (l : List α) (k : Nat), firstMatchIdx p l = some k →
      ∃ hk : k < l.length, p (l.get ⟨k, hk⟩) = true ∧
        ∀ j (hj : j < k), p (l.get ⟨j, Nat.lt_trans hj hk⟩) = false := by
  intro l
  induction l with
  | nil => intro k h; exact absurd h (by simp [firstMatchIdx])
  | cons a l ih =>
    intro k h
    by_cases ha : p a = true
    · rw [firstMatchIdx, if_pos ha] at h
      have hk0 : k = 0 := by simpa using h.symm
      subst hk0
      exact ⟨by simp, ha, fun j hj => absurd hj (Nat.not_lt_zero j)⟩
    · rw [firstMatchIdx, if_neg ha] at h
      obtain ⟨k2, hk2, hplus⟩ := Option.map_eq_some'.mp h
      obtain ⟨hlt, hp, hmin⟩ := ih k2 hk2
      subst hplus
      refine ⟨by simpa using Nat.succ_lt_succ hlt, by simpa using hp, ?_⟩
      intro j hj
      cases j with
      | zero => simpa using ha
      | succ j2 =>
        have := hmin j2 (by omega)
        simpa using this

theorem firstMatchIdx_eq_some_of {α : Type} (p : α → Bool) :
    ∀ (l : List α) (k : Nat) (hk : k < l.length), p (l.get ⟨k, hk⟩) = true →
      (∀ j (hj : j < k), p (l.get ⟨j, Nat.lt_trans hj hk⟩) = false) →
      firstMatchIdx p l = some k := by
  intro l
  induction l with
  | nil => intro k hk; exact absurd hk (by simp)
  | cons a l ih =>
    intro k hk hp hmin
    cases k with
    | zero =>
      rw [firstMatchIdx, if_pos (by simpa using hp)]
    | succ k2 =>
      have ha : p a = false := by simpa using hmin 0 (Nat.succ_pos k2)
      rw [firstMatchIdx, if_neg (by simp [ha])]
      rw [ih k2 (by simpa using Nat.lt_of_succ_lt_succ hk) (by simpa using hp)
        (fun j hj => by simpa using hmin (j + 1) (Nat.succ_lt_succ hj))]
      rfl

theorem firstMatchIdx_isSome_of {α : Type} (p : α → Bool) (l : List α) (x : α)
    (hx : x ∈ l) (hp : p x = true) : ∃ k, firstMatchIdx p l = some k := by
  cases h : firstMatchIdx p l with
  | some k => exact ⟨k, rfl⟩
  | none =>
    have := firstMatchIdx_none_inv p l h x hx
    rw [hp] at this
    exact absurd this (by simp)

theorem firstMatchIdx_congr {α : Type} (p q : α → Bool) :
    ∀ (l : List α), (∀ x ∈ l, p x = q x) → firstMatchIdx p l = firstMatchIdx q l := by
  intro l
  induction l with
  | nil => intro _; rfl
  | cons a l ih =>
    intro h
    simp only [firstMatchIdx, h a (List.mem_cons_self a l),
      ih (fun x hx => h x (List.mem_cons_of_mem a hx))]

/-! ### Boolean/propositional bridges for branch classification -/

theorem finPred_eq_true_iff (p c L : List Nat) :
    finPred p c L = true ↔ (p <+: L ∧ L <+: p ++ c) := by
  simp [finPred, List.isPrefixOf_iff_prefix]

theorem alivePred_eq_true_iff (q L : List Nat) :
    alivePred q L = true ↔ (q <+: L ∧ L ≠ q) := by
  simp [alivePred, List.isPrefixOf_iff_prefix]

theorem litBranchStep_fin (p c L : List Nat) (h : finPred p c L = true) :
    branchStep litParse c (L, litStateEntry p L) =
      .ok (.finished () (c.drop (L.length - p.length))) := by
  rw [litBranchStep_eq, if_pos ((finPred_eq_true_iff p c L).mp h)]

theorem litBranchStep_not_fin (p c L : List Nat) (h : finPred p c L = false) :
    ∀ o r, branchStep litParse c (L, litStateEntry p L) ≠ .ok (.finished o r) := by
  intro o r
  have hcond : ¬(p <+: L ∧ L <+: p ++ c) := by
    intro hc
    rw [(finPred_eq_true_iff p c L).mpr hc] at h
    exact absurd h (by simp)
  rw [litBranchStep_eq, if_neg hcond]
  split <;> simp

theorem litBranchStep_inc (p c L : List Nat) (hnof : finPred p c L = false)
    (halive : alivePred (p ++ c) L = true) :
    branchStep litParse c (L, litStateEntry p L) =
      .ok (.incomplete (p.length + c.length) (.owned (L.drop (p.length + c.length)))) := by
  have hcond : ¬(p <+: L ∧ L <+: p ++ c) := by
    intro hc
    rw [(finPred_eq_true_iff p c L).mpr hc] at hnof
    exact absurd hnof (by simp)
  obtain ⟨h1, h2⟩ := (alivePred_eq_true_iff (p ++ c) L).mp halive
  rw [litBranchStep_eq, if_neg hcond, if_pos ⟨h1, fun hc => h2 hc.symm⟩]

theorem litBranchStep_err (p c L : List Nat) (hnof : finPred p c L = false)
    (hnoal : alivePred (p ++ c) L = false) :
    branchStep litParse c (L, litStateEntry p L) = .error () := by
  have hcond : ¬(p <+: L ∧ L <+: p ++ c) := by
    intro hc
    rw [(finPred_eq_true_iff p c L).mpr hc] at hnof
    exact absurd hnof (by simp)
  have hcond2 : ¬(p ++ c <+: L ∧ p ++ c ≠ L) := by
    intro hc
    rw [(alivePred_eq_true_iff (p ++ c) L).mpr ⟨hc.1, fun he => hc.2 he.symm⟩] at hnoal
    exact absurd hnoal (by simp)
  rw [litBranchStep_eq, if_neg hcond, if_neg hcond2]

theorem litBranchNewState (p c L : List Nat) (h : finPred p c L = false) :
    branchNewState litParse c (L, litStateEntry p L) = litStateEntry (p ++ c) L := by
  by_cases hal : alivePred (p ++ c) L = true
  · rw [branchNewState, litBranchStep_inc p c L h hal]
    obtain ⟨h1, -⟩ := (alivePred_eq_true_iff (p ++ c) L).mp hal
    show Except.ok (p.length + c.length) = litStateEntry (p ++ c) L
    rw [litStateEntry, if_pos h1, List.length_append]
  · rw [branchNewState, litBranchStep_err p c L h (by simpa using hal)]
    have hnp : ¬(p ++ c <+: L) := by
      intro hc
      by_cases he : L = p ++ c
      · rw [(finPred_eq_true_iff p c L).mpr
          ⟨he ▸ List.prefix_append p c, he ▸ List.prefix_rfl⟩] at h
        exact absurd h (by simp)
      · rw [(alivePred_eq_true_iff (p ++ c) L).mpr ⟨hc, he⟩] at hal
        exact absurd rfl hal
    show Except.error () = litStateEntry (p ++ c) L
    rw [litStateEntry, if_neg hnp]

/-! ### Scan lemmas for IndexParser over literal branches -/

theorem zip_litStates (ls : List (List Nat)) (p : List Nat) :
    ls.zip (litStates ls p) = ls.map (fun L => (L, litStateEntry p L)) := by
  rw [litStates]
  induction ls with
  | nil => rfl
  | cons L rest ih => simp [List.zip_cons_cons, ih]

theorem litScanFin (ls : List (List Nat)) (p c : List Nat) (k : Nat)
    (hfmi : firstMatchIdx (finPred p c) ls = some k) :
    ∃ hklen : k < ls.length,
      indexParse ls litParse ⟨litStates ls p⟩ c =
        .ok (.finished k (c.drop ((ls.get ⟨k, hklen⟩).length - p.length))) := by
  obtain ⟨hklen, hpk, hmin⟩ := firstMatchIdx_some_spec (finPred p c) ls k hfmi
  refine ⟨hklen, ?_⟩
  rw [indexParse, zip_litStates]
  have hdecomp : ls.map (fun L => (L, litStateEntry p L)) =
      (ls.take k).map (fun L => (L, litStateEntry p L)) ++
        (ls.get ⟨k, hklen⟩, litStateEntry p (ls.get ⟨k, hklen⟩)) ::
        (ls.drop (k + 1)).map (fun L => (L, litStateEntry p L)) := by
    conv_lhs => rw [← List.take_append_drop k ls]
    rw [List.map_append]
    congr 1
    rw [List.drop_eq_getElem_cons hklen, List.map_cons]
    simp [List.get_eq_getElem]
  rw [hdecomp]
  have hres := indexLoop_finished litParse c (ls.length - 1)
    ((ls.take k).map (fun L => (L, litStateEntry p L)))
    (ls.get ⟨k, hklen⟩, litStateEntry p (ls.get ⟨k, hklen⟩))
    ((ls.drop (k + 1)).map (fun L => (L, litStateEntry p L)))
    0 false none [] () (c.drop ((ls.get ⟨k, hklen⟩).length - p.length))
    ?_ ?_ ?_
  · rw [hres]
    have hlen : ((ls.take k).map (fun L => (L, litStateEntry p L))).length = k := by
      simp [List.length_take]
      omega
    rw [hlen, Nat.zero_add]
  · intro y hy o2 r2
    obtain ⟨L, hLmem, rfl⟩ := List.mem_map.mp hy
    obtain ⟨j, hj, hLj⟩ := List.mem_take_iff_getElem.mp hLmem
    have hjk : j < k := by
      have := hj
      omega
    have hfalse : finPred p c L = false := by
      have := hmin j hjk
      rw [List.get_eq_getElem] at this
      rw [← hLj]
      exact this
    exact litBranchStep_not_fin p c L hfalse o2 r2
  · exact litBranchStep_fin p c (ls.get ⟨k, hklen⟩) hpk
  · have hlen : ((ls.take k).map (fun L => (L, litStateEntry p L))).length = k := by
      simp [List.length_take]
      omega
    rw [hlen]
    omega

theorem litScanInc (ls : List (List Nat)) (p c : List Nat) (hls : ls ≠ [])
    (hnof : firstMatchIdx (finPred p c) ls = none)
    (hinc : ∃ L ∈ ls, alivePred (p ++ c) L = true) :
    ∃ hint, indexParse ls litParse ⟨litStates ls p⟩ c =
      .ok (.incomplete ⟨litStates ls (p ++ c)⟩ hint) := by
  have hall := firstMatchIdx_none_inv (finPred p c) ls hnof
  have hlen0 : 0 < ls.length := List.length_pos.mpr hls
  rw [indexParse, zip_litStates]
  have hnofz : ∀ z ∈ ls.map (fun L => (L, litStateEntry p L)), ∀ o r,
      branchStep litParse c z ≠ .ok (.finished o r) := by
    intro z hz o r
    obtain ⟨L, hLmem, rfl⟩ := List.mem_map.mp hz
    exact litBranchStep_not_fin p c L (hall L hLmem) o r
  have hsome : (false : Bool) = true ∨ ∃ z ∈ ls.map (fun L => (L, litStateEntry p L)),
      ∃ ns nr, branchStep litParse c z = .ok (.incomplete ns nr) := by
    refine Or.inr ?_
    obtain ⟨L, hLmem, hal⟩ := hinc
    refine ⟨(L, litStateEntry p L), List.mem_map.mpr ⟨L, hLmem, rfl⟩, ?_⟩
    exact ⟨p.length + c.length, .owned (L.drop (p.length + c.length)),
      litBranchStep_inc p c L (hall L hLmem) hal⟩
  obtain ⟨hint, hh⟩ := indexLoop_incomplete litParse c (ls.length - 1)
    (ls.map (fun L => (L, litStateEntry p L))) 0 false none []
    (by simp only [List.length_map]; omega) hnofz hsome
  refine ⟨hint, ?_⟩
  rw [hh]
  have hstates : (ls.map (fun L => (L, litStateEntry p L))).map (branchNewState litParse c) =
      litStates ls (p ++ c) := by
    rw [List.map_map, litStates]
    refine List.map_congr_left ?_
    intro L hL
    exact litBranchNewState p c L (hall L hL)
  rw [List.reverse_nil, List.nil_append, hstates]

theorem litScanErr (ls : List (List Nat)) (p c : List Nat) (hls : ls ≠ [])
    (hnof : firstMatchIdx (finPred p c) ls = none)
    (hnoal : ∀ L ∈ ls, alivePred (p ++ c) L = false) :
    indexParse ls litParse ⟨litStates ls p⟩ c = .error () := by
  have hall := firstMatchIdx_none_inv (finPred p c) ls hnof
  have hlen0 : 0 < ls.length := List.length_pos.mpr hls
  have hmapne : ls.map (fun L => (L, litStateEntry p L)) ≠ [] := by
    simp [hls]
  rw [indexParse, zip_litStates]
  refine indexLoop_error litParse c (ls.length - 1)
    (ls.map (fun L => (L, litStateEntry p L))) 0 none [] ()
    (by simp only [List.length_map]; omega) ?_ hmapne ?_
  · intro z hz
    obtain ⟨L, hLmem, rfl⟩ := List.mem_map.mp hz
    exact ⟨(), litBranchStep_err p c L (hall L hLmem) (hnoal L hLmem)⟩
  · have hmem := List.getLast_mem hmapne
    obtain ⟨L, hLmem, hLeq⟩ := List.mem_map.mp hmem
    rw [← hLeq]
    exact litBranchStep_err p c L (hall L hLmem) (hnoal L hLmem)

/-! ### OneLine lemmas -/

theorem flagUpdate_eq (st : OneLineState) (c : Nat) :
    (if st.all_whitespace && !byteIsWhitespace c then (⟨false, st.bytes⟩ : OneLineState)
     else st) = ⟨st.all_whitespace && byteIsWhitespace c, st.bytes⟩ := by
  obtain ⟨aw, bs⟩ := st
  cases aw <;> cases hws : byteIsWhitespace c <;> simp_all

theorem byteIsWhitespace_of_term (c : Nat) (h : isTermByte c = true) :
    byteIsWhitespace c = true := by
  have h2 : c = 10 ∨ c = 13 := by simpa [isTermByte] using h
  rcases h2 with rfl | rfl <;> decide

theorem oneLineLoop_cons (st : OneLineState) (c : Nat) (rest : List Nat) :
    oneLineLoop st (c :: rest) =
      if isTermByte c then
        if st.all_whitespace && byteIsWhitespace c then .error ()
        else .ok (.finished (String.mk (utf8LossyDecode st.bytes)) rest)
      else oneLineLoop ⟨st.all_whitespace && byteIsWhitespace c, st.bytes ++ [c]⟩ rest := by
  simp only [oneLineLoop, flagUpdate_eq]

theorem oneLineLoop_error_iff (st : OneLineState) (input : List Nat) :
    oneLineLoop st input = .error () ↔
      st.all_whitespace = true ∧
      (input.takeWhile (fun c => !isTermByte c)).all byteIsWhitespace = true ∧
      input.any isTermByte = true := by
  induction input generalizing st with
  | nil => simp [oneLineLoop]
  | cons c rest ih =>
    rw [oneLineLoop_cons]
    by_cases hterm : isTermByte c = true
    · have hws := byteIsWhitespace_of_term c hterm
      rw [if_pos hterm]
      have htw : (c :: rest).takeWhile (fun b => !isTermByte b) = [] := by
        simp [List.takeWhile_cons, hterm]
      have hany : (c :: rest).any isTermByte = true := by
        simp [hterm]
      rw [htw, hany, hws, Bool.and_true]
      constructor
      · intro h
        refine ⟨?_, by simp, rfl⟩
        by_cases haw : st.all_whitespace = true
        · exact haw
        · rw [if_neg (by simp [haw])] at h
          exact absurd h (by simp)
      · rintro ⟨haw, -, -⟩
        rw [if_pos haw]
    · have hterm2 : isTermByte c = false := by simpa using hterm
      rw [if_neg hterm, ih]
      simp only [List.takeWhile_cons, hterm2, Bool.not_false, if_true, List.all_cons,
        List.any_cons, Bool.false_or, Bool.and_eq_true]
      constructor
      · rintro ⟨⟨h1, h2⟩, h3, h4⟩
        exact ⟨h1, ⟨h2, h3⟩, h4⟩
      · rintro ⟨h1, ⟨h2, h3⟩, h4⟩
        exact ⟨⟨h1, h2⟩, h3, h4⟩

theorem oneLineLoop_finished_eq (st : OneLineState) (input : List Nat)
    (hterm : input.any isTermByte = true)
    (hcontent : (st.all_whitespace &&
      (input.takeWhile (fun c => !isTermByte c)).all byteIsWhitespace) = false) :
    oneLineLoop st input = .ok (.finished
      (String.mk (utf8LossyDecode (st.bytes ++ input.takeWhile (fun c => !isTermByte c))))
      (input.drop ((input.takeWhile (fun c => !isTermByte c)).length + 1))) := by
  induction input generalizing st with
  | nil => exact absurd hterm (by simp)
  | cons c rest ih =>
    rw [oneLineLoop_cons]
    by_cases htc : isTermByte c = true
    · have hws := byteIsWhitespace_of_term c htc
      have htw : (c :: rest).takeWhile (fun b => !isTermByte b) = [] := by
        simp [List.takeWhile_cons, htc]
      rw [htw] at hcontent ⊢
      rw [if_pos htc, if_neg (by simp_all), List.append_nil]
      simp
    · have htc2 : isTermByte c = false := by simpa using htc
      have htw : (c :: rest).takeWhile (fun b => !isTermByte b) =
          c :: rest.takeWhile (fun b => !isTermByte b) := by
        simp [List.takeWhile_cons, htc2]
      rw [htw] at hcontent ⊢
      rw [if_neg htc]
      have hterm' : rest.any isTermByte = true := by
        simpa [htc2] using hterm
      have hcontent' : ((⟨st.all_whitespace && byteIsWhitespace c, st.bytes ++ [c]⟩ :
          OneLineState).all_whitespace &&
          (rest.takeWhile (fun b => !isTermByte b)).all byteIsWhitespace) = false := by
        rw [List.all_cons] at hcontent
        show ((st.all_whitespace && byteIsWhitespace c) &&
          (rest.takeWhile (fun b => !isTermByte b)).all byteIsWhitespace) = false
        rw [Bool.and_assoc]
        exact hcontent
      rw [ih _ hterm' hcontent']
      simp [List.append_assoc]

/-! ### Claim theorems: IndexParser hint merge, first match, error propagation -/

/-- C1: evaluation of the code at the failing input. Two alive branches both
return Incomplete with `Cow::Borrowed` hints "ab" and "ac"; the claim (and
the spec) say the merged required-next hint is their longest common byte
prefix "a", but `IndexParser::parse` produces "b" — the suffix of the running
hint after the common prefix — because the `Cow::Borrowed` merge arms slice
with `&hint[common_bytes..]` instead of truncating to `common_bytes` as the
`Cow::Owned` arm does. -/
theorem indexParse_merged_hint_not_common_prefix :
    indexParse [RCow.borrowed [97, 98], RCow.borrowed [97, 99]]
      (fun h _ _ => .ok (.incomplete () h) :
        RCow → Unit → List Nat → Except Unit (ParseResult Unit Unit))
      ⟨[.ok (), .ok ()]⟩ [] =
      .ok (.incomplete ⟨[.ok (), .ok ()]⟩ (.borrowed [98])) ∧
    commonPrefixTake [97, 98] [97, 99] = [97] ∧
    RCow.borrowed [98] ≠ RCow.borrowed (commonPrefixTake [97, 98] [97, 99]) := by
  refine ⟨by rfl, by decide, by decide⟩

theorem litStates_nil (ls : List (List Nat)) :
    litStates ls [] = ls.map (fun _ => Except.ok 0) := by
  rw [litStates]
  refine List.map_congr_left ?_
  intro L _
  rw [litStateEntry, if_pos List.nil_prefix]
  rfl

theorem finPred_nil_eq (input L : List Nat) :
    finPred [] input L = L.isPrefixOf input := by
  simp [finPred]

/-- C2: feeding an `IndexParser` over literal branches (from a fresh state)
an input that some branch's literal fully matches as a prefix yields
Finished at the position of the earliest-registered matching branch, with
the bytes after that branch's literal as remainder — registration order
wins, not longest match. -/
theorem indexParse_first_match (ls : List (List Nat)) (input : List Nat)
    (h : ∃ L ∈ ls, L.isPrefixOf input = true) :
    ∃ k, ∃ hk : k < ls.length,
      firstMatchIdx (fun L => L.isPrefixOf input) ls = some k ∧
      indexParse ls litParse (initIndexState ls) input =
        .ok (.finished k (input.drop (ls.get ⟨k, hk⟩).length)) := by
  obtain ⟨L, hLmem, hLp⟩ := h
  have hcongr : firstMatchIdx (finPred [] input) ls =
      firstMatchIdx (fun L => L.isPrefixOf input) ls :=
    firstMatchIdx_congr _ _ ls (fun x _ => finPred_nil_eq input x)
  obtain ⟨k, hk⟩ := firstMatchIdx_isSome_of (finPred [] input) ls L hLmem
    (by rw [finPred_nil_eq]; exact hLp)
  obtain ⟨hklen, hres⟩ := litScanFin ls [] input k hk
  refine ⟨k, hklen, by rw [← hcongr]; exact hk, ?_⟩
  have hinit : initIndexState ls = ⟨litStates ls []⟩ := by
    rw [initIndexState, litStates_nil]
  rw [hinit, hres]
  simp

/-- C3: `IndexParser::parse` returns an error iff every branch is dead —
rejected now or stored-dead from an earlier call (equivalently, no branch
finishes or reports Incomplete during the call) — and in that case the error
surfaced is the final branch's error; a rejection with a viable sibling is
never the overall result. -/
theorem indexParse_error_iff_all_dead {S PA E : Type}
    (parsers : List S) (bp : S → PA → List Nat → Except E (ParseResult PA Unit))
    (sts : List (Except E PA)) (input : List Nat)
    (hlen : sts.length = parsers.length) (hne : parsers ≠ []) :
    ((∃ e, indexParse parsers bp ⟨sts⟩ input = .error e) ↔
      ∀ z ∈ parsers.zip sts, ∃ e2, branchStep bp input z = .error e2) ∧
    (∀ e (hzne : parsers.zip sts ≠ []),
      (∀ z ∈ parsers.zip sts, ∃ e2, branchStep bp input z = .error e2) →
      branchStep bp input ((parsers.zip sts).getLast hzne) = .error e →
      indexParse parsers bp ⟨sts⟩ input = .error e) := by
  have hpos : 0 < parsers.length := List.length_pos.mpr hne
  have hziplen : (parsers.zip sts).length = parsers.length := by
    rw [List.length_zip, hlen]
    exact Nat.min_self _
  have hlen1 : 0 + (parsers.zip sts).length = (parsers.length - 1) + 1 := by
    omega
  constructor
  · constructor
    · rintro ⟨e, he⟩
      rw [indexParse] at he
      obtain ⟨-, hall, -⟩ := indexLoop_error_inv bp input (parsers.length - 1)
        (parsers.zip sts) 0 false none [] e hlen1 he
      exact hall
    · intro hall
      have hzne : parsers.zip sts ≠ [] := by
        intro hnil
        rw [hnil] at hziplen
        simp at hziplen
        omega
      obtain ⟨e2, hlast⟩ := hall _ (List.getLast_mem hzne)
      refine ⟨e2, ?_⟩
      rw [indexParse]
      exact indexLoop_error bp input (parsers.length - 1) (parsers.zip sts) 0 none [] e2
        hlen1 hall hzne hlast
  · intro e hzne hall hlast
    rw [indexParse]
    exact indexLoop_error bp input (parsers.length - 1) (parsers.zip sts) 0 none [] e
      hlen1 hall hzne hlast

theorem indexParse_first_match_witness :
    ∃ k, ∃ hk : k < ([[97, 98], [97, 98, 99]] : List (List Nat)).length,
      firstMatchIdx (fun L => L.isPrefixOf [97, 98, 99]) [[97, 98], [97, 98, 99]] = some k ∧
      indexParse [[97, 98], [97, 98, 99]] litParse (initIndexState [[97, 98], [97, 98, 99]])
        [97, 98, 99] =
        .ok (.finished k (([97, 98, 99] : List Nat).drop
          ((([[97, 98], [97, 98, 99]] : List (List Nat)).get ⟨k, hk⟩).length))) :=
  indexParse_first_match [[97, 98], [97, 98, 99]] [97, 98, 99] (by decide)

theorem indexParse_error_iff_all_dead_witness :
    indexParse [[97], [98]] litParse ⟨[Except.ok 0, Except.ok 0]⟩ [99] = .error () :=
  (indexParse_error_iff_all_dead [[97], [98]] litParse [Except.ok 0, Except.ok 0] [99]
      (by decide) (by decide)).2 () (by decide) (by decide) (by decide)

/-! ### Claim theorems: OneLine -/

/-- C4: `OneLine::parse` rejects in exactly two cases: an empty chunk while
the state is still all-whitespace (including the very first call on a fresh
state), or a `\n`/`\r` terminator reached while everything accumulated —
state plus the bytes before the first terminator in this chunk — is still
whitespace. No other input shape is rejected. -/
theorem oneLine_error_iff (st : OneLineState) (input : List Nat) :
    oneLineParse st input = .error () ↔
      (input = [] ∧ st.all_whitespace = true) ∨
      (st.all_whitespace = true ∧
        (input.takeWhile (fun c => !isTermByte c)).all byteIsWhitespace = true ∧
        input.any isTermByte = true) := by
  by_cases hin : input = []
  · subst hin
    rw [oneLineParse, if_pos rfl]
    by_cases haw : st.all_whitespace = true
    · rw [if_pos haw]
      simp [haw]
    · rw [if_neg haw]
      simp [haw]
  · rw [oneLineParse, if_neg hin, oneLineLoop_error_iff]
    simp [hin]

/-- C5: when `OneLine::parse` reaches a terminator byte with non-whitespace
content accumulated, it finishes: the output is the accumulated bytes before
the (single-byte) terminator decoded with invalid UTF-8 replaced rather than
failing, and the remainder is everything after that one terminator byte — so
a `\r\n` pair resolves at the `\r`, leaving the `\n` in the remainder. -/
theorem oneLine_finished_eq (st : OneLineState) (input : List Nat)
    (hterm : input.any isTermByte = true)
    (hcontent : (st.all_whitespace &&
      (input.takeWhile (fun c => !isTermByte c)).all byteIsWhitespace) = false) :
    oneLineParse st input = .ok (.finished
      (String.mk (utf8LossyDecode (st.bytes ++ input.takeWhile (fun c => !isTermByte c))))
      (input.drop ((input.takeWhile (fun c => !isTermByte c)).length + 1))) := by
  have hin : input ≠ [] := by
    intro hnil
    rw [hnil] at hterm
    exact absurd hterm (by simp)
  rw [oneLineParse, if_neg hin]
  exact oneLineLoop_finished_eq st input hterm hcontent

theorem oneLine_finished_eq_witness :
    oneLineParse oneLineInit [111, 107, 10] = .ok (.finished "ok" []) ∧
    oneLineParse oneLineInit [111, 107, 13, 10, 109, 111, 114, 101] =
      .ok (.finished "ok" [10, 109, 111, 114, 101]) := by
  constructor
  · have h := oneLine_finished_eq oneLineInit [111, 107, 10] (by decide) (by decide)
    exact h.trans (by decide)
  · have h := oneLine_finished_eq oneLineInit [111, 107, 13, 10, 109, 111, 114, 101]
      (by decide) (by decide)
    exact h.trans (by decide)

/-- C10: `OneLine` decides blankness byte-by-byte, each input byte read as a
single character: byte 0xC2 — the lead byte of the UTF-8 encoding of U+00A0 —
is not itself whitespace, so it clears the all-whitespace flag, and the line
"\xC2\xA0\n" finishes (with output U+00A0 after lossy decoding) instead of
being rejected as blank. -/
theorem oneLine_multibyte_whitespace_not_blank :
    byteIsWhitespace 0xC2 = false ∧
    oneLineParse oneLineInit [0xC2, 0xA0, 10] =
      .ok (.finished (String.mk [Char.ofNat 0xA0]) []) := by
  exact ⟨by decide, by decide⟩

/-! ### Chunk composition for OneLine -/

theorem oneLineLoop_append (st : OneLineState) (a b : List Nat) :
    oneLineLoop st (a ++ b) =
      match oneLineLoop st a with
      | .ok (.incomplete st2 _) => oneLineLoop st2 b
      | .ok (.finished o r) => .ok (.finished o (r ++ b))
      | .error e => .error e := by
  induction a generalizing st with
  | nil => simp [oneLineLoop]
  | cons c as ih =>
    rw [List.cons_append, oneLineLoop_cons, oneLineLoop_cons]
    by_cases htc : isTermByte c = true
    · rw [if_pos htc, if_pos htc]
      by_cases haw : (st.all_whitespace && byteIsWhitespace c) = true
      · rw [if_pos haw, if_pos haw]
      · rw [if_neg haw, if_neg haw]
    · rw [if_neg htc, if_neg htc]
      exact ih _

theorem runOneLineChunks_cons_err (st : OneLineState) (c : List Nat) (cs : List (List Nat))
    (e : Unit) (h : oneLineParse st c = .error e) :
    runOneLineChunks st (c :: cs) = .failed := by
  simp only [runOneLineChunks, h]

theorem runOneLineChunks_cons_fin (st : OneLineState) (c : List Nat) (cs : List (List Nat))
    (o : String) (r : List Nat) (h : oneLineParse st c = .ok (.finished o r)) :
    runOneLineChunks st (c :: cs) = .finished o (r ++ cs.flatten) := by
  simp only [runOneLineChunks, h]

theorem runOneLineChunks_cons_inc (st : OneLineState) (c : List Nat) (cs : List (List Nat))
    (st2 : OneLineState) (hint : RCow) (h : oneLineParse st c = .ok (.incomplete st2 hint)) :
    runOneLineChunks st (c :: cs) = runOneLineChunks st2 cs := by
  simp only [runOneLineChunks, h]

theorem runOneLineChunks_eq_single (st : OneLineState) (chunks : List (List Nat))
    (hne : chunks ≠ []) (hc : ∀ c ∈ chunks, c ≠ []) :
    runOneLineChunks st chunks = runOneLineChunks st [chunks.flatten] := by
  induction chunks generalizing st with
  | nil => exact absurd rfl hne
  | cons c cs ih =>
    have hcne : c ≠ [] := hc c (List.mem_cons_self c cs)
    cases cs with
    | nil => simp
    | cons c2 cs2 =>
      have hrne : (c2 :: cs2).flatten ≠ [] :=
        List.flatten_ne_nil_iff.mpr ⟨c2, List.mem_cons_self c2 cs2, hc c2 (by simp)⟩
      have hcrne : c ++ (c2 :: cs2).flatten ≠ [] := by
        simp [hcne]
      have hflat : (c :: c2 :: cs2).flatten = c ++ (c2 :: cs2).flatten := rfl
      have happ := oneLineLoop_append st c ((c2 :: cs2).flatten)
      rw [hflat]
      cases hres : oneLineLoop st c with
      | error e =>
        rw [hres] at happ
        have happ2 : oneLineLoop st (c ++ (c2 :: cs2).flatten) = .error e := happ
        rw [runOneLineChunks_cons_err st c _ e (by rw [oneLineParse, if_neg hcne]; exact hres),
          runOneLineChunks_cons_err st _ _ e (by rw [oneLineParse, if_neg hcrne]; exact happ2)]
      | ok pr =>
        cases pr with
        | finished o r =>
          rw [hres] at happ
          have happ2 : oneLineLoop st (c ++ (c2 :: cs2).flatten) =
              .ok (.finished o (r ++ (c2 :: cs2).flatten)) := happ
          rw [runOneLineChunks_cons_fin st c _ o r
              (by rw [oneLineParse, if_neg hcne]; exact hres),
            runOneLineChunks_cons_fin st _ _ o (r ++ (c2 :: cs2).flatten)
              (by rw [oneLineParse, if_neg hcrne]; exact happ2)]
          simp
        | incomplete st2 hint =>
          rw [hres] at happ
          have happ2 : oneLineLoop st (c ++ (c2 :: cs2).flatten) =
              oneLineLoop st2 ((c2 :: cs2).flatten) := happ
          rw [runOneLineChunks_cons_inc st c _ st2 hint
            (by rw [oneLineParse, if_neg hcne]; exact hres)]
          rw [ih st2 (by simp) (fun x hx => hc x (List.mem_cons_of_mem c hx))]
          cases hres2 : oneLineLoop st2 ((c2 :: cs2).flatten) with
          | error e =>
            rw [hres2] at happ2
            rw [runOneLineChunks_cons_err st2 _ _ e
                (by rw [oneLineParse, if_neg hrne]; exact hres2),
              runOneLineChunks_cons_err st _ _ e
                (by rw [oneLineParse, if_neg hcrne]; exact happ2)]
          | ok pr2 =>
            cases pr2 with
            | finished o2 r2 =>
              rw [hres2] at happ2
              rw [runOneLineChunks_cons_fin st2 _ _ o2 r2
                  (by rw [oneLineParse, if_neg hrne]; exact hres2),
                runOneLineChunks_cons_fin st _ _ o2 r2
                  (by rw [oneLineParse, if_neg hcrne]; exact happ2)]
            | incomplete st3 hint3 =>
              rw [hres2] at happ2
              rw [runOneLineChunks_cons_inc st2 _ _ st3 hint3
                  (by rw [oneLineParse, if_neg hrne]; exact hres2),
                runOneLineChunks_cons_inc st _ _ st3 hint3
                  (by rw [oneLineParse, if_neg hcrne]; exact happ2)]

/-! ### Chunk threading for IndexParser over literal branches -/

theorem runIndexChunks_cons_err (ls : List (List Nat)) (st : IndexParserState Nat Unit)
    (c : List Nat) (cs : List (List Nat)) (e : Unit)
    (h : indexParse ls litParse st c = .error e) :
    runIndexChunks ls st (c :: cs) = .failed := by
  simp only [runIndexChunks, h]

theorem runIndexChunks_cons_fin (ls : List (List Nat)) (st : IndexParserState Nat Unit)
    (c : List Nat) (cs : List (List Nat)) (i : Nat) (r : List Nat)
    (h : indexParse ls litParse st c = .ok (.finished i r)) :
    runIndexChunks ls st (c :: cs) = .finished i (r ++ cs.flatten) := by
  simp only [runIndexChunks, h]

theorem runIndexChunks_cons_inc (ls : List (List Nat)) (st : IndexParserState Nat Unit)
    (c : List Nat) (cs : List (List Nat)) (st2 : IndexParserState Nat Unit) (hint : RCow)
    (h : indexParse ls litParse st c = .ok (.incomplete st2 hint)) :
    runIndexChunks ls st (c :: cs) = runIndexChunks ls st2 cs := by
  simp only [runIndexChunks, h]

theorem bool_eq_of_iff {a b : Bool} (h : a = true ↔ b = true) : a = b := by
  cases a <;> cases b <;> simp_all

theorem finPred_extend (p c r L : List Nat) (h : finPred p c L = true) :
    finPred p (c ++ r) L = true := by
  obtain ⟨h1, h2⟩ := (finPred_eq_true_iff p c L).mp h
  refine (finPred_eq_true_iff p (c ++ r) L).mpr ⟨h1, ?_⟩
  rw [← List.append_assoc]
  exact h2.trans (List.prefix_append (p ++ c) r)

theorem pairwise_not_prefix_get (ls : List (List Nat))
    (hPFC : List.Pairwise (fun a b => ¬ b <+: a) ls) (j k : Nat)
    (hj : j < ls.length) (hk : k < ls.length) (hjk : j < k) :
    ¬ ls.get ⟨k, hk⟩ <+: ls.get ⟨j, hj⟩ := by
  have := List.pairwise_iff_getElem.mp hPFC j k hj hk hjk
  simpa [List.get_eq_getElem] using this

theorem firstMatchIdx_extend (ls : List (List Nat)) (p c r : List Nat) (k : Nat)
    (hPFC : List.Pairwise (fun a b => ¬ b <+: a) ls)
    (hfmi : firstMatchIdx (finPred p c) ls = some k) :
    firstMatchIdx (finPred p (c ++ r)) ls = some k := by
  obtain ⟨hk, hpk, hmin⟩ := firstMatchIdx_some_spec (finPred p c) ls k hfmi
  refine firstMatchIdx_eq_some_of (finPred p (c ++ r)) ls k hk
    (finPred_extend p c r _ hpk) ?_
  intro j hj
  by_contra hcon
  have htrue : finPred p (c ++ r) (ls.get ⟨j, Nat.lt_trans hj hk⟩) = true := by
    cases h2 : finPred p (c ++ r) (ls.get ⟨j, Nat.lt_trans hj hk⟩) with
    | true => rfl
    | false => exact absurd h2 hcon
  obtain ⟨hpj, hjfull⟩ := (finPred_eq_true_iff _ _ _).mp htrue
  obtain ⟨hpkk, hkc⟩ := (finPred_eq_true_iff _ _ _).mp hpk
  have hkfull : ls.get ⟨k, hk⟩ <+: p ++ (c ++ r) := by
    rw [← List.append_assoc]
    exact hkc.trans (List.prefix_append (p ++ c) r)
  have hcomp := List.prefix_or_prefix_of_prefix hjfull hkfull
  have hnotkj := pairwise_not_prefix_get ls hPFC j k (Nat.lt_trans hj hk) hk hj
  rcases hcomp with hjb | hkb
  · have : finPred p c (ls.get ⟨j, Nat.lt_trans hj hk⟩) = true :=
      (finPred_eq_true_iff _ _ _).mpr ⟨hpj, hjb.trans hkc⟩
    rw [hmin j hj] at this
    exact absurd this (by simp)
  · exact hnotkj hkb

theorem finPred_shift (ls : List (List Nat)) (p c r : List Nat)
    (hnof : firstMatchIdx (finPred p c) ls = none) (L : List Nat) (hL : L ∈ ls) :
    finPred p (c ++ r) L = finPred (p ++ c) r L := by
  have hall := firstMatchIdx_none_inv (finPred p c) ls hnof
  refine bool_eq_of_iff ?_
  rw [finPred_eq_true_iff, finPred_eq_true_iff]
  constructor
  · rintro ⟨h1, h2⟩
    have h2' : L <+: (p ++ c) ++ r := by
      rw [List.append_assoc]
      exact h2
    have hcomp := List.prefix_or_prefix_of_prefix h2' (List.prefix_append (p ++ c) r)
    rcases hcomp with hlc | hcl
    · have : finPred p c L = true := (finPred_eq_true_iff _ _ _).mpr ⟨h1, hlc⟩
      rw [hall L hL] at this
      exact absurd this (by simp)
    · exact ⟨hcl, h2'⟩
  · rintro ⟨h1, h2⟩
    refine ⟨(List.prefix_append p c).trans h1, ?_⟩
    rw [← List.append_assoc]
    exact h2

theorem singleOutcome_eq_some (ls : List (List Nat)) (p c : List Nat) (k : Nat)
    (h : firstMatchIdx (finPred p c) ls = some k) :
    singleOutcome ls p c = .finished k (c.drop ((ls.getD k []).length - p.length)) := by
  simp only [singleOutcome, h]

theorem singleOutcome_eq_none (ls : List (List Nat)) (p c : List Nat)
    (h : firstMatchIdx (finPred p c) ls = none) :
    singleOutcome ls p c =
      if ls.any (alivePred (p ++ c)) then .pending else .failed := by
  simp only [singleOutcome, h]

theorem singleOutcome_shift (ls : List (List Nat)) (p c r : List Nat)
    (hnof : firstMatchIdx (finPred p c) ls = none) :
    singleOutcome ls p (c ++ r) = singleOutcome ls (p ++ c) r := by
  have hfid : firstMatchIdx (finPred p (c ++ r)) ls =
      firstMatchIdx (finPred (p ++ c) r) ls :=
    firstMatchIdx_congr _ _ ls (finPred_shift ls p c r hnof)
  cases hfmi2 : firstMatchIdx (finPred (p ++ c) r) ls with
  | none =>
    rw [singleOutcome_eq_none ls p (c ++ r) (hfid.trans hfmi2),
      singleOutcome_eq_none ls (p ++ c) r hfmi2,
      show p ++ (c ++ r) = p ++ c ++ r from (List.append_assoc p c r).symm]
  | some k =>
    obtain ⟨hk, hpk, -⟩ := firstMatchIdx_some_spec (finPred (p ++ c) r) ls k hfmi2
    obtain ⟨h1, -⟩ := (finPred_eq_true_iff _ _ _).mp hpk
    have hlenk : p.length + c.length ≤ (ls.getD k []).length := by
      have := h1.length_le
      rw [List.length_append] at this
      rw [List.getD_eq_getElem ls [] hk]
      rw [List.get_eq_getElem] at this
      exact this
    have hn : (ls.getD k []).length - p.length =
        c.length + ((ls.getD k []).length - (p ++ c).length) := by
      rw [List.length_append]
      omega
    rw [singleOutcome_eq_some ls p (c ++ r) k (hfid.trans hfmi2),
      singleOutcome_eq_some ls (p ++ c) r k hfmi2, hn, List.drop_append]

theorem singleOutcome_dead (ls : List (List Nat)) (p c r : List Nat)
    (hnof : firstMatchIdx (finPred p c) ls = none)
    (hnoal : ∀ L ∈ ls, alivePred (p ++ c) L = false) :
    singleOutcome ls p (c ++ r) = .failed := by
  have hall := firstMatchIdx_none_inv (finPred p c) ls hnof
  have hdead : ∀ L ∈ ls, ¬ p ++ c <+: L := by
    intro L hL hpc
    by_cases he : L = p ++ c
    · have : finPred p c L = true := (finPred_eq_true_iff _ _ _).mpr
        ⟨he ▸ List.prefix_append p c, he ▸ List.prefix_rfl⟩
      rw [hall L hL] at this
      exact absurd this (by simp)
    · have : alivePred (p ++ c) L = true := (alivePred_eq_true_iff _ _).mpr ⟨hpc, he⟩
      rw [hnoal L hL] at this
      exact absurd this (by simp)
  have hfin2 : firstMatchIdx (finPred p (c ++ r)) ls = none := by
    refine firstMatchIdx_none_of _ ls ?_
    intro L hL
    cases h2 : finPred p (c ++ r) L with
    | false => rfl
    | true =>
      obtain ⟨h1, hfull⟩ := (finPred_eq_true_iff _ _ _).mp h2
      have hfull' : L <+: (p ++ c) ++ r := by
        rw [List.append_assoc]
        exact hfull
      rcases List.prefix_or_prefix_of_prefix hfull' (List.prefix_append (p ++ c) r) with
        hlc | hcl
      · have : finPred p c L = true := (finPred_eq_true_iff _ _ _).mpr ⟨h1, hlc⟩
        rw [hall L hL] at this
        exact absurd this (by simp)
      · exact absurd hcl (hdead L hL)
  have halive2 : ls.any (alivePred (p ++ (c ++ r))) = false := by
    cases h2 : ls.any (alivePred (p ++ (c ++ r))) with
    | false => rfl
    | true =>
      obtain ⟨L, hL, hLal⟩ := List.any_eq_true.mp h2
      obtain ⟨hpfx, -⟩ := (alivePred_eq_true_iff _ _).mp hLal
      have : p ++ c <+: L := by
        refine List.IsPrefix.trans ?_ hpfx
        rw [← List.append_assoc]
        exact List.prefix_append (p ++ c) r
      exact absurd this (hdead L hL)
  rw [singleOutcome_eq_none ls p (c ++ r) hfin2, halive2]
  simp

theorem litThread (ls : List (List Nat))
    (hPFC : List.Pairwise (fun a b => ¬ b <+: a) ls) :
    ∀ (chunks : List (List Nat)) (p : List Nat),
      (∀ c ∈ chunks, c ≠ []) →
      (∀ L ∈ ls, ¬ L <+: p) →
      (∃ L ∈ ls, p <+: L) →
      runIndexChunks ls ⟨litStates ls p⟩ chunks = singleOutcome ls p chunks.flatten := by
  intro chunks
  induction chunks with
  | nil =>
    intro p hc hp halive
    have hnof : firstMatchIdx (finPred p []) ls = none := by
      refine firstMatchIdx_none_of _ ls ?_
      intro L hL
      cases h2 : finPred p [] L with
      | false => rfl
      | true =>
        obtain ⟨-, h2b⟩ := (finPred_eq_true_iff _ _ _).mp h2
        rw [List.append_nil] at h2b
        exact absurd h2b (hp L hL)
    have hany : ls.any (alivePred (p ++ [])) = true := by
      obtain ⟨L, hL, hpL⟩ := halive
      refine List.any_eq_true.mpr ⟨L, hL, ?_⟩
      rw [List.append_nil]
      refine (alivePred_eq_true_iff _ _).mpr ⟨hpL, ?_⟩
      intro he
      exact hp L hL (he ▸ List.prefix_rfl)
    show StreamOutcome.pending = singleOutcome ls p ([] : List (List Nat)).flatten
    rw [show ([] : List (List Nat)).flatten = ([] : List Nat) from rfl,
      singleOutcome_eq_none ls p [] hnof, hany]
    simp
  | cons c cs ih =>
    intro p hc hp halive
    have hls : ls ≠ [] := by
      obtain ⟨L, hL, -⟩ := halive
      exact List.ne_nil_of_mem hL
    have hflat : (c :: cs).flatten = c ++ cs.flatten := rfl
    rw [hflat]
    cases hfmi : firstMatchIdx (finPred p c) ls with
    | some k =>
      obtain ⟨hklen, hres⟩ := litScanFin ls p c k hfmi
      rw [runIndexChunks_cons_fin ls _ c cs k _ hres]
      have hfmi2 := firstMatchIdx_extend ls p c cs.flatten k hPFC hfmi
      obtain ⟨hk2, hpk, -⟩ := firstMatchIdx_some_spec (finPred p c) ls k hfmi
      obtain ⟨-, hkc⟩ := (finPred_eq_true_iff _ _ _).mp hpk
      have hgetD : ls.getD k [] = ls.get ⟨k, hklen⟩ := by
        rw [List.getD_eq_getElem ls [] hklen, List.get_eq_getElem]
      have hled : (ls.get ⟨k, hklen⟩).length - p.length ≤ c.length := by
        have := hkc.length_le
        rw [List.length_append] at this
        rw [List.get_eq_getElem] at this ⊢
        omega
      rw [singleOutcome_eq_some ls p (c ++ cs.flatten) k hfmi2, hgetD,
        List.drop_append_of_le_length hled]
    | none =>
      by_cases hal : ∃ L ∈ ls, alivePred (p ++ c) L = true
      · obtain ⟨hint, hres⟩ := litScanInc ls p c hls hfmi hal
        rw [runIndexChunks_cons_inc ls _ c cs _ hint hres]
        have hall := firstMatchIdx_none_inv (finPred p c) ls hfmi
        have hp' : ∀ L ∈ ls, ¬ L <+: p ++ c := by
          intro L hL hLpc
          have hcomp := List.prefix_or_prefix_of_prefix hLpc
            (List.prefix_rfl (l := p ++ c))
          by_cases hLp : L <+: p
          · exact hp L hL hLp
          · have hpcomp := List.prefix_or_prefix_of_prefix hLpc
              (List.prefix_append p c)
            rcases hpcomp with hLpp | hppL
            · exact hp L hL hLpp
            · have : finPred p c L = true := (finPred_eq_true_iff _ _ _).mpr ⟨hppL, hLpc⟩
              rw [hall L hL] at this
              exact absurd this (by simp)
        have halive' : ∃ L ∈ ls, p ++ c <+: L := by
          obtain ⟨L, hL, hLal⟩ := hal
          exact ⟨L, hL, ((alivePred_eq_true_iff _ _).mp hLal).1⟩
        rw [ih (p ++ c) (fun x hx => hc x (List.mem_cons_of_mem c hx)) hp' halive']
        exact (singleOutcome_shift ls p c cs.flatten hfmi).symm
      · have hnoal : ∀ L ∈ ls, alivePred (p ++ c) L = false := by
          intro L hL
          cases h2 : alivePred (p ++ c) L with
          | false => rfl
          | true => exact absurd ⟨L, hL, h2⟩ hal
        have hres := litScanErr ls p c hls hfmi hnoal
        rw [runIndexChunks_cons_err ls _ c cs () hres]
        exact (singleOutcome_dead ls p c cs.flatten hfmi hnoal).symm

/-- C6 (amended): chunk-size independence holds unconditionally for
`OneLine` — threading any split of the input into non-empty chunks through
the state gives the same outcome (same Finished output, same total
remainder, same failure) as a single call on the whole input — and it holds
for `IndexParser` over non-empty literal branches provided no branch's
literal is a prefix of an earlier-registered branch's literal; without that
proviso it fails (see the counterexample). -/
theorem chunk_independence :
    (∀ (st : OneLineState) (chunks : List (List Nat)), chunks ≠ [] →
      (∀ c ∈ chunks, c ≠ []) →
      runOneLineChunks st chunks = runOneLineChunks st [chunks.flatten]) ∧
    (∀ (ls chunks : List (List Nat)),
      List.Pairwise (fun a b => ¬ b <+: a) ls → ls ≠ [] → (∀ L ∈ ls, L ≠ []) →
      chunks ≠ [] → (∀ c ∈ chunks, c ≠ []) →
      runIndexChunks ls (initIndexState ls) chunks =
        runIndexChunks ls (initIndexState ls) [chunks.flatten]) := by
  constructor
  · exact runOneLineChunks_eq_single
  · intro ls chunks hPFC hls hlit hcne hc
    have hinit : initIndexState ls = ⟨litStates ls []⟩ := by
      rw [initIndexState, litStates_nil]
    have hp0 : ∀ L ∈ ls, ¬ L <+: ([] : List Nat) := by
      intro L hL hLnil
      exact hlit L hL (List.prefix_nil.mp hLnil)
    have halive0 : ∃ L ∈ ls, ([] : List Nat) <+: L := by
      cases ls with
      | nil => exact absurd rfl hls
      | cons L0 ls2 => exact ⟨L0, List.mem_cons_self L0 ls2, List.nil_prefix⟩
    have hflatne : chunks.flatten ≠ [] := by
      cases chunks with
      | nil => exact absurd rfl hcne
      | cons c cs =>
        exact List.flatten_ne_nil_iff.mpr ⟨c, List.mem_cons_self c cs,
          hc c (List.mem_cons_self c cs)⟩
    rw [hinit, litThread ls hPFC chunks [] hc hp0 halive0,
      litThread ls hPFC [chunks.flatten] [] (by simpa using hflatne) hp0 halive0]
    have : ([chunks.flatten] : List (List Nat)).flatten = chunks.flatten := by simp
    rw [this]

theorem chunk_independence_witness :
    runOneLineChunks oneLineInit [[111], [107, 10]] =
      runOneLineChunks oneLineInit [[[111], [107, 10]].flatten] ∧
    runIndexChunks [[97], [98, 99]] (initIndexState [[97], [98, 99]]) [[98], [99]] =
      runIndexChunks [[97], [98, 99]] (initIndexState [[97], [98, 99]])
        [[[98], [99]].flatten] :=
  ⟨chunk_independence.1 oneLineInit [[111], [107, 10]] (by decide) (by decide),
   chunk_independence.2 [[97], [98, 99]] [[98], [99]] (by decide) (by decide) (by decide)
     (by decide) (by decide)⟩

/-- C6 counterexample: the claim as stated fails for `IndexParser`. With
branches "ab" then "a" (the later branch's literal a prefix of the earlier
one's), the input "ab" fed as one chunk finishes at branch 0 with empty
remainder, but fed as the chunks "a", "b" it finishes at branch 1 with
remainder "b" — a different output and a different remainder. -/
theorem chunk_dependence_cex :
    runIndexChunks [[97, 98], [97]] (initIndexState [[97, 98], [97]]) [[97], [98]] =
      .finished 1 [98] ∧
    runIndexChunks [[97, 98], [97]] (initIndexState [[97, 98], [97]]) [[97, 98]] =
      .finished 0 [] ∧
    (StreamOutcome.finished 1 [98] : StreamOutcome Nat) ≠ .finished 0 [] := by
  exact ⟨by decide, by decide, by decide⟩

/-! ### Claim theorems: ToolManager registry composition -/

/-- C7: `tool_choices` builds one literal two-line branch marker
`"{name}\n{input prompt}"` per registered tool in registration order, wrapped
in an `IndexParser`, and returns `None` exactly when the registry is empty;
for a one-tool registry named "search" with prompt "query:", parsing
"search\nquery:" against the returned parser finishes at index 0 with empty
remainder. -/
theorem toolChoices_spec :
    (∀ tools : List Tool, toolChoices tools = none ↔ tools = []) ∧
    (∀ tools : List Tool, tools ≠ [] →
      toolChoices tools = some (tools.map (fun t => t.name ++ [10] ++ t.inputPrompt))) ∧
    indexParse ((toolChoices [searchTool]).getD []) litParse
      (initIndexState ((toolChoices [searchTool]).getD []))
      (strBytes "search\nquery:") = .ok (.finished 0 []) := by
  refine ⟨?_, ?_, by decide⟩
  · intro tools
    cases tools with
    | nil => simp [toolChoices]
    | cons t rest => simp [toolChoices]
  · intro tools h
    rw [toolChoices]
    have : (tools.map (fun t => t.name ++ [10] ++ t.inputPrompt)).isEmpty = false := by
      cases tools with
      | nil => exact absurd rfl h
      | cons t rest => rfl
    simp only [this, Bool.false_eq_true, if_false]

theorem toolChoices_spec_witness :
    toolChoices [searchTool] =
      some ([searchTool].map (fun t => t.name ++ [10] ++ t.inputPrompt)) :=
  toolChoices_spec.2.1 [searchTool] (by simp)

/-- C8: building the Action grammar needs a non-empty registry: with at least
one registered tool, `tool_choices` is `some` and its parser list has length
at least 1, so the `unwrap` in `action_constraints` cannot fail and the
`parsers.len() - 1` computation in `IndexParser::parse` cannot underflow
(`len - 1 + 1 = len`); with zero tools the branch-marker grammar is absent
(`none`) and the Action grammar must not be built. -/
theorem action_grammar_nonempty (tools : List Tool) :
    (tools = [] → toolChoices tools = none) ∧
    (tools ≠ [] → ∃ ps, toolChoices tools = some ps ∧ 1 ≤ ps.length ∧
      ps.length - 1 + 1 = ps.length) := by
  constructor
  · intro h
    subst h
    rfl
  · intro h
    refine ⟨tools.map (fun t => t.name ++ [10] ++ t.inputPrompt),
      toolChoices_spec.2.1 tools h, ?_, ?_⟩
    · rw [List.length_map]
      exact List.length_pos.mpr h
    · rw [List.length_map]
      have := List.length_pos.mpr h
      omega

theorem action_grammar_nonempty_witness :
    toolChoices [] = none ∧
    ∃ ps, toolChoices [searchTool] = some ps ∧ 1 ≤ ps.length ∧
      ps.length - 1 + 1 = ps.length :=
  ⟨(action_grammar_nonempty []).1 rfl, (action_grammar_nonempty [searchTool]).2 (by simp)⟩

/-! ### Claim theorems: prompt text -/

theorem promptLoop_eq (tools : List Tool) (ts tn : List Nat) :
    promptLoop tools (ts, tn) =
      (ts ++ (tools.map
        (fun t => strBytes "# " ++ t.name ++ strBytes "\n" ++ t.description)).flatten,
       tn ++ (tools.map (fun t => strBytes "'" ++ t.name ++ strBytes "'")).flatten) := by
  induction tools generalizing ts tn with
  | nil => simp [promptLoop]
  | cons t rest ih =>
    rw [promptLoop, ih]
    simp [List.append_assoc]

set_option maxRecDepth 80000 in
/-- C9 counterexample: the prompt does not contain each registered tool's
name exactly once — for the one-tool registry with the name "search" (which
occurs nowhere in the fixed template, the description "zzz9", or the question
"q"), the name occurs twice as a substring: once in the bracketed action list
and once in the tools section. -/
theorem prompt_name_not_exactly_once :
    countOcc (strBytes "search") (prompt [searchTool] (strBytes "q")) = 2 ∧
    (2 : Nat) ≠ 1 := by
  exact ⟨by decide, by decide⟩

set_option maxRecDepth 80000 in
/-- C9 (amended): for every registry and question, the prompt embeds, in
registration order, each tool's quoted name once inside the bracketed action
list and each tool's `"# name\ndescription"` entry once inside the tools
section — so each name is emitted twice and each description once; on the
concrete one-tool registry the name occurs exactly twice and the description
exactly once as substrings. -/
theorem prompt_structure :
    (∀ (tools : List Tool) (q : List Nat),
      prompt tools q = promptPartA ++
        (tools.map (fun t => strBytes "'" ++ t.name ++ strBytes "'")).flatten ++
        promptPartB ++
        (tools.map
          (fun t => strBytes "# " ++ t.name ++ strBytes "\n" ++ t.description)).flatten ++
        promptPartC ++ q ++ promptPartD) ∧
    countOcc (strBytes "search") (prompt [searchTool] (strBytes "q")) = 2 ∧
    countOcc (strBytes "zzz9") (prompt [searchTool] (strBytes "q")) = 1 := by
  refine ⟨?_, by decide, by decide⟩
  intro tools q
  rw [prompt, promptLoop_eq]
  simp
